import Mathlib

/-!
Verification of the dictionary tokenization codec of `Black_Hole_102.py`.

Python strings are modelled as `List Char` (sequences of Unicode scalar
values), byte strings as `List Nat` with each element a byte value, and
Python `dict` objects as insertion-ordered association lists with
overwrite-on-assignment semantics (`pyDictSet` / `pyDictGet`).
-/

/-- Python's whitespace predicate (the class matched by the regex `\s` and
tested by `str.isspace()`): ASCII whitespace, the C1 separators, NEL, NBSP
and the Unicode space characters. -/
def pyIsSpace (c : Char) : Bool :=
  decide ((9 ≤ c.toNat ∧ c.toNat ≤ 13) ∨ c.toNat = 32 ∨ (28 ≤ c.toNat ∧ c.toNat ≤ 31) ∨
    c.toNat = 133 ∨ c.toNat = 160 ∨ c.toNat = 5760 ∨ (8192 ≤ c.toNat ∧ c.toNat ≤ 8202) ∨
    c.toNat = 8232 ∨ c.toNat = 8233 ∨ c.toNat = 8239 ∨ c.toNat = 8287 ∨ c.toNat = 12288)

/-- Python `str.isspace()`: true iff the string is nonempty and every
character is whitespace. -/
def pyStrIsSpace (s : List Char) : Bool :=
  !s.isEmpty && s.all pyIsSpace

/-- Helper for `tokenize`: extends the current run (class `cls`, reversed
accumulator `acc`) while following characters are of the same whitespace
class, starting a new run on a class change. -/
def tokenizeAux (cls : Bool) (acc : List Char) : List Char → List (List Char)
  | [] => [acc.reverse]
  | c :: rest =>
    if pyIsSpace c = cls then tokenizeAux cls (c :: acc) rest
    else acc.reverse :: tokenizeAux (pyIsSpace c) [c] rest

/-- The tokenizer `re.findall(r'\S+|\s+', text)` (line 51): the list of maximal
whitespace runs and maximal non-whitespace runs of `text`, in order. -/
def tokenize : List Char → List (List Char)
  | [] => []
  | c :: rest => tokenizeAux (pyIsSpace c) [c] rest

/-- Python `dict` assignment `d[k] = v`: if the key is present its value is
overwritten in place (insertion position kept), otherwise the pair is
appended at the end. -/
def pyDictSet {α β : Type} [DecidableEq α] (d : List (α × β)) (k : α) (v : β) :
    List (α × β) :=
  if d.any (fun p => decide (p.1 = k)) then
    d.map (fun p => if p.1 = k then (k, v) else p)
  else d ++ [(k, v)]

/-- Python `dict.get(k)`: value of the (unique) entry with key `k`, if any. -/
def pyDictGet {α β : Type} [DecidableEq α] (d : List (α × β)) (k : α) : Option β :=
  (d.find? (fun p => decide (p.1 = k))).map (fun p => p.2)

/-- Python `str.strip()`: drop leading and trailing whitespace. -/
def pyStrip (s : List Char) : List Char :=
  ((s.dropWhile pyIsSpace).reverse.dropWhile pyIsSpace).reverse

/-- Python `str.split()` with no separator: the maximal non-whitespace runs
of the string. -/
def pySplit (s : List Char) : List (List Char) :=
  (tokenize s).filter (fun t => !(pyStrIsSpace t))

/-- The computation `line.strip().split()` followed by taking `parts[0]` when the line has
at least one field (lines 32-33). -/
def firstField (line : List Char) : Option (List Char) :=
  (pySplit (pyStrip line)).head?

/-- Loop body of `load_dictionary_from_file` (lines 29-34): visit the lines
in order with a running index, stop once the index reaches `max_lines`, and
for each line with at least one field assign `dictionary[parts[0]] = idx`. -/
def loadDictAux (max_lines : Nat) : Nat → List (List Char) → List (List Char × Nat) →
    List (List Char × Nat)
  | _, [], d => d
  | idx, line :: rest, d =>
    if idx ≥ max_lines then d
    else
      loadDictAux max_lines (idx + 1) rest
        (match firstField line with
         | some w => pyDictSet d w idx
         | none => d)

/-- The function `load_dictionary_from_file` (lines 25-38), modelled on the list of lines
of the successfully opened word-list file (the file I/O and the error path
returning `None` are outside the byte-level model). -/
def load_dictionary_from_file (lines : List (List Char)) (max_lines : Nat) :
    List (List Char × Nat) :=
  loadDictAux max_lines 0 lines []

/-- The function `int_to_3bytes` (lines 40-41): `[(v >> 16) & 0xFF, (v >> 8) & 0xFF, v & 0xFF]`,
written with division and remainder. -/
def int_to_3bytes (value : Nat) : List Nat :=
  [value / 65536 % 256, value / 256 % 256, value % 256]

/-- The function `bytes3_to_int` (lines 43-44): `(b0 << 16) | (b1 << 8) | b2`; on byte
inputs the bitwise-or of the disjoint fields equals this sum. -/
def bytes3_to_int (b0 b1 b2 : Nat) : Nat :=
  b0 * 65536 + b1 * 256 + b2

/-- The UTF-8 encoding of one Unicode scalar value (Python `str.encode('utf-8')`,
one character). -/
def utf8EncodeChar (c : Char) : List Nat :=
  if c.toNat < 128 then [c.toNat]
  else if c.toNat < 2048 then [192 + c.toNat / 64, 128 + c.toNat % 64]
  else if c.toNat < 65536 then
    [224 + c.toNat / 4096, 128 + c.toNat / 64 % 64, 128 + c.toNat % 64]
  else
    [240 + c.toNat / 262144, 128 + c.toNat / 4096 % 64, 128 + c.toNat / 64 % 64,
      128 + c.toNat % 64]

/-- The UTF-8 encoding of a string (Python `str.encode('utf-8')`). -/
def utf8EncodeStr (s : List Char) : List Nat :=
  (s.map utf8EncodeChar).flatten

/-- Python `bytes.decode('utf-8', errors='ignore')`: decode well-formed
UTF-8 sequences to their scalar values, skip an ill-formed byte and
restart at the next byte, and drop a multi-byte sequence cut off by the
end of the input (a leader whose continuation bytes run out).  Because
ignored bytes contribute no output and a continuation byte can never
start a character, skipping one byte at a time coincides with the
maximal-subpart policy of the CPython codec.  The four non-empty list
patterns distinguish how many bytes are still available. -/
def utf8DecodeIgnore : List Nat → List Char
  | [] => []
  | [b] =>
    if b < 128 then [Char.ofNat b] else []
  | [b, b1] =>
    if b < 128 then Char.ofNat b :: utf8DecodeIgnore [b1]
    else if b < 192 then utf8DecodeIgnore [b1]
    else if b < 224 then
      if 128 ≤ b1 ∧ b1 < 192 then
        if 128 ≤ (b - 192) * 64 + (b1 - 128) then
          [Char.ofNat ((b - 192) * 64 + (b1 - 128))]
        else []
      else utf8DecodeIgnore [b1]
    else if b < 248 then
      if 128 ≤ b1 ∧ b1 < 192 then [] else utf8DecodeIgnore [b1]
    else utf8DecodeIgnore [b1]
  | [b, b1, b2] =>
    if b < 128 then Char.ofNat b :: utf8DecodeIgnore [b1, b2]
    else if b < 192 then utf8DecodeIgnore [b1, b2]
    else if b < 224 then
      if 128 ≤ b1 ∧ b1 < 192 then
        if 128 ≤ (b - 192) * 64 + (b1 - 128) then
          Char.ofNat ((b - 192) * 64 + (b1 - 128)) :: utf8DecodeIgnore [b2]
        else utf8DecodeIgnore [b2]
      else utf8DecodeIgnore [b1, b2]
    else if b < 240 then
      if (128 ≤ b1 ∧ b1 < 192) ∧ (128 ≤ b2 ∧ b2 < 192) then
        if 2048 ≤ (b - 224) * 4096 + (b1 - 128) * 64 + (b2 - 128) ∧
            ¬(55296 ≤ (b - 224) * 4096 + (b1 - 128) * 64 + (b2 - 128) ∧
              (b - 224) * 4096 + (b1 - 128) * 64 + (b2 - 128) < 57344) then
          [Char.ofNat ((b - 224) * 4096 + (b1 - 128) * 64 + (b2 - 128))]
        else []
      else utf8DecodeIgnore [b1, b2]
    else if b < 248 then
      if 128 ≤ b1 ∧ b1 < 192 then
        if 128 ≤ b2 ∧ b2 < 192 then [] else utf8DecodeIgnore [b2]
      else utf8DecodeIgnore [b1, b2]
    else utf8DecodeIgnore [b1, b2]
  | b :: b1 :: b2 :: b3 :: rest =>
    if b < 128 then Char.ofNat b :: utf8DecodeIgnore (b1 :: b2 :: b3 :: rest)
    else if b < 192 then utf8DecodeIgnore (b1 :: b2 :: b3 :: rest)
    else if b < 224 then
      if 128 ≤ b1 ∧ b1 < 192 then
        if 128 ≤ (b - 192) * 64 + (b1 - 128) then
          Char.ofNat ((b - 192) * 64 + (b1 - 128)) :: utf8DecodeIgnore (b2 :: b3 :: rest)
        else utf8DecodeIgnore (b2 :: b3 :: rest)
      else utf8DecodeIgnore (b1 :: b2 :: b3 :: rest)
    else if b < 240 then
      if (128 ≤ b1 ∧ b1 < 192) ∧ (128 ≤ b2 ∧ b2 < 192) then
        if 2048 ≤ (b - 224) * 4096 + (b1 - 128) * 64 + (b2 - 128) ∧
            ¬(55296 ≤ (b - 224) * 4096 + (b1 - 128) * 64 + (b2 - 128) ∧
              (b - 224) * 4096 + (b1 - 128) * 64 + (b2 - 128) < 57344) then
          Char.ofNat ((b - 224) * 4096 + (b1 - 128) * 64 + (b2 - 128)) ::
            utf8DecodeIgnore (b3 :: rest)
        else utf8DecodeIgnore (b3 :: rest)
      else utf8DecodeIgnore (b1 :: b2 :: b3 :: rest)
    else if b < 248 then
      if ((128 ≤ b1 ∧ b1 < 192) ∧ (128 ≤ b2 ∧ b2 < 192)) ∧ (128 ≤ b3 ∧ b3 < 192) then
        if 65536 ≤ (b - 240) * 262144 + (b1 - 128) * 4096 + (b2 - 128) * 64 + (b3 - 128) ∧
            (b - 240) * 262144 + (b1 - 128) * 4096 + (b2 - 128) * 64 + (b3 - 128) <
              1114112 then
          Char.ofNat
              ((b - 240) * 262144 + (b1 - 128) * 4096 + (b2 - 128) * 64 + (b3 - 128)) ::
            utf8DecodeIgnore rest
        else utf8DecodeIgnore rest
      else utf8DecodeIgnore (b1 :: b2 :: b3 :: rest)
    else utf8DecodeIgnore (b1 :: b2 :: b3 :: rest)

/-- Body of the encoding loop of `compress_text_with_dictionary`
(lines 52-67) for one token.  `bytearray.append` only accepts values below
256, so a length byte of 256 or more raises `ValueError`, modelled as
`none`. -/
def encodeToken (dictionary : List (List Char × Nat)) (token : List Char) :
    Option (List Nat) :=
  if pyStrIsSpace token then
    let encoded := utf8EncodeStr token
    if encoded.length ≤ 255 then some (2 :: encoded.length :: encoded) else none
  else
    match pyDictGet dictionary token with
    | some code => some (1 :: int_to_3bytes code)
    | none =>
      let raw := utf8EncodeStr token
      if raw.length ≤ 255 then some (0 :: raw.length :: raw) else none

/-- The encoding loop of `compress_text_with_dictionary` over the token
list: records are appended in order; an exception in any iteration aborts
the whole call. -/
def encodeTokens (dictionary : List (List Char × Nat)) :
    List (List Char) → Option (List Nat)
  | [] => some []
  | t :: rest =>
    match encodeToken dictionary t with
    | none => none
    | some r =>
      match encodeTokens dictionary rest with
      | none => none
      | some rs => some (r ++ rs)

/-- The function `compress_text_with_dictionary` (lines 49-68). -/
def compress_text_with_dictionary (text : List Char)
    (dictionary : List (List Char × Nat)) : Option (List Nat) :=
  encodeTokens dictionary (tokenize text)

/-- The comprehension building reverse id-to-word map (line 71): a dict
comprehension over the entries in insertion order, with dict-assignment
semantics. -/
def revDict (dictionary : List (List Char × Nat)) : List (Nat × List Char) :=
  dictionary.foldl (fun r p => pyDictSet r p.2 p.1) []

/-- The decoding loop of `decompress_text_with_dictionary` (lines 72-99),
with the cursor represented by the remaining suffix of the byte list and an
explicit fuel argument bounding the number of iterations (`none` means the
fuel ran out; `decodeAux_total` below shows fuel `data.length` always
suffices, since every iteration consumes at least the tag byte).
Python slicing `data[i:i+length]` is lenient, hence `take` and `drop`. -/
def decodeAux (rev : List (Nat × List Char)) : Nat → List Nat → Option (List (List Char))
  | _, [] => some []
  | 0, _ :: _ => none
  | fuel + 1, flag :: rest =>
    if flag = 1 then
      match rest with
      | b0 :: b1 :: b2 :: rest2 =>
        (decodeAux rev fuel rest2).map
          (fun tail => (pyDictGet rev (bytes3_to_int b0 b1 b2)).getD [] :: tail)
      | _ => some []
    else if flag = 0 then
      match rest with
      | [] => some []
      | l :: rest2 =>
        (decodeAux rev fuel (rest2.drop l)).map
          (fun tail => utf8DecodeIgnore (rest2.take l) :: tail)
    else if flag = 2 then
      match rest with
      | [] => some []
      | l :: rest2 =>
        (decodeAux rev fuel (rest2.drop l)).map
          (fun tail => utf8DecodeIgnore (rest2.take l) :: tail)
    else decodeAux rev fuel rest

/-- The list of strings appended by the decoding loop (`result` at line 100),
run with sufficient fuel. -/
def decodeList (rev : List (Nat × List Char)) (data : List Nat) : List (List Char) :=
  (decodeAux rev data.length data).getD []

/-- The function `decompress_text_with_dictionary` (lines 70-100): concatenation of the
decoded pieces, as in line 100. -/
def decompress_text_with_dictionary (data : List Nat)
    (dictionary : List (List Char × Nat)) : List Char :=
  (decodeList (revDict dictionary) data).flatten

/-- The function `transform_with_pattern` (lines 102-103): XOR every byte with `0xFF`. -/
def transform_with_pattern (data : List Nat) : List Nat :=
  data.map (fun b => b ^^^ 255)

/-- A well-formed wire record, as produced by the encoder: tag 1 followed
by exactly three bytes, or tag 0/2 followed by a length byte and exactly
that many payload bytes. -/
def wfRecord : List Nat → Bool
  | [] => false
  | [_] => false
  | t :: l :: payload =>
    if t = 1 then
      payload.length == 2 && decide (l < 256) && payload.all (fun b => b < 256)
    else (t == 0 || t == 2) && payload.length == l && decide (l ≤ 255)

/-! ## Tokenizer lemmas -/

theorem tokenizeAux_flatten (l : List Char) : ∀ (cls : Bool) (acc : List Char),
    (tokenizeAux cls acc l).flatten = acc.reverse ++ l := by
  induction l with
  | nil => intro cls acc; simp [tokenizeAux]
  | cons c rest ih =>
    intro cls acc
    simp only [tokenizeAux]
    by_cases h : pyIsSpace c = cls
    · rw [if_pos h, ih]
      simp
    · rw [if_neg h]
      simp [ih]

theorem tokenize_flatten (text : List Char) : (tokenize text).flatten = text := by
  cases text with
  | nil => rfl
  | cons c rest => simpa using tokenizeAux_flatten rest (pyIsSpace c) [c]

theorem tokenizeAux_tokens (l : List Char) : ∀ (cls : Bool) (acc : List Char),
    acc ≠ [] → (∀ x ∈ acc, pyIsSpace x = cls) →
    ∀ t ∈ tokenizeAux cls acc l, t ≠ [] ∧ ∃ b, ∀ x ∈ t, pyIsSpace x = b := by
  induction l with
  | nil =>
    intro cls acc hne hcl t ht
    simp only [tokenizeAux, List.mem_singleton] at ht
    subst ht
    refine ⟨by simpa using hne, cls, ?_⟩
    intro x hx
    exact hcl x (List.mem_reverse.mp hx)
  | cons c rest ih =>
    intro cls acc hne hcl t ht
    simp only [tokenizeAux] at ht
    by_cases h : pyIsSpace c = cls
    · rw [if_pos h] at ht
      refine ih cls (c :: acc) (by simp) ?_ t ht
      intro x hx
      rcases List.mem_cons.mp hx with rfl | hx
      · exact h
      · exact hcl x hx
    · rw [if_neg h] at ht
      rcases List.mem_cons.mp ht with rfl | ht
      · refine ⟨by simpa using hne, cls, ?_⟩
        intro x hx
        exact hcl x (List.mem_reverse.mp hx)
      · refine ih (pyIsSpace c) [c] (by simp) ?_ t ht
        intro x hx
        rcases List.mem_cons.mp hx with rfl | hx
        · rfl
        · simp at hx

theorem tokenize_tokens (text : List Char) :
    ∀ t ∈ tokenize text, t ≠ [] ∧ ∃ b, ∀ x ∈ t, pyIsSpace x = b := by
  cases text with
  | nil => intro t ht; simp [tokenize] at ht
  | cons c rest =>
    intro t ht
    exact tokenizeAux_tokens rest (pyIsSpace c) [c] (by simp) (by simp) t ht

/-! ## Claims C7 and C8 -/

/-- Claim C7: for every input string the tokenizer produces a finite token
sequence in which no token is empty, each token is entirely whitespace or
entirely non-whitespace, and the concatenation of the tokens in order is
exactly the input; the empty input yields the empty sequence. -/
theorem claim_C7 : tokenize [] = [] ∧ ∀ text : List Char,
    (tokenize text).flatten = text ∧
    ∀ t ∈ tokenize text,
      t ≠ [] ∧ (t.all pyIsSpace = true ∨ t.all (fun c => !(pyIsSpace c)) = true) := by
  refine ⟨rfl, fun text => ⟨tokenize_flatten text, fun t ht => ?_⟩⟩
  obtain ⟨hne, b, hb⟩ := tokenize_tokens text t ht
  refine ⟨hne, ?_⟩
  cases b with
  | true => exact Or.inl (List.all_eq_true.mpr fun x hx => hb x hx)
  | false =>
    refine Or.inr (List.all_eq_true.mpr fun x hx => ?_)
    simp [hb x hx]

/-- Witness for C7 at the concrete text `"a "`. -/
theorem claim_C7_witness :
    ['a'] ≠ [] ∧
      (['a'].all pyIsSpace = true ∨ ['a'].all (fun c => !(pyIsSpace c)) = true) :=
  (claim_C7.2 ['a', Char.ofNat 32]).2 ['a'] (by decide)

/-- Claim C8: the byte transform XORs every byte with `0xFF` and is an
involution: applying `transform_with_pattern` twice returns the original
byte sequence. -/
theorem claim_C8 (data : List Nat) :
    transform_with_pattern (transform_with_pattern data) = data := by
  unfold transform_with_pattern
  rw [List.map_map]
  have h : ((fun b => b ^^^ 255) ∘ fun b : Nat => b ^^^ 255) = id := by
    funext b
    simp [Function.comp, Nat.xor_assoc]
  rw [h, List.map_id]

/-! ## Decoder fuel lemmas -/

theorem decodeAux_nil (rev : List (Nat × List Char)) (fuel : Nat) :
    decodeAux rev fuel [] = some [] := by
  cases fuel <;> rfl

theorem decodeAux_fuel (rev : List (Nat × List Char)) :
    ∀ (fuel fuel' : Nat) (data : List Nat), data.length ≤ fuel → data.length ≤ fuel' →
      decodeAux rev fuel data = decodeAux rev fuel' data := by
  intro fuel
  induction fuel with
  | zero =>
    intro fuel' data h h'
    have hdata : data = [] := List.eq_nil_of_length_eq_zero (Nat.le_zero.mp h)
    subst hdata
    simp [decodeAux_nil]
  | succ fuel ih =>
    intro fuel' data h h'
    cases data with
    | nil => simp [decodeAux_nil]
    | cons flag rest =>
      cases fuel' with
      | zero => simp at h'
      | succ fuel' =>
        simp only [List.length_cons] at h h'
        simp only [decodeAux]
        by_cases h1 : flag = 1
        · rw [if_pos h1, if_pos h1]
          cases rest with
          | nil => rfl
          | cons b0 r0 =>
            cases r0 with
            | nil => rfl
            | cons b1 r1 =>
              cases r1 with
              | nil => rfl
              | cons b2 rest2 =>
                simp only [List.length_cons] at h h'
                show Option.map
                    (fun tail => (pyDictGet rev (bytes3_to_int b0 b1 b2)).getD [] :: tail)
                    (decodeAux rev fuel rest2) =
                  Option.map
                    (fun tail => (pyDictGet rev (bytes3_to_int b0 b1 b2)).getD [] :: tail)
                    (decodeAux rev fuel' rest2)
                rw [ih fuel' rest2 (by omega) (by omega)]
        · rw [if_neg h1, if_neg h1]
          by_cases h0 : flag = 0
          · rw [if_pos h0, if_pos h0]
            cases rest with
            | nil => rfl
            | cons l rest2 =>
              simp only [List.length_cons] at h h'
              have hlen : (rest2.drop l).length ≤ rest2.length := by
                simp [List.length_drop]
              show Option.map (fun tail => utf8DecodeIgnore (List.take l rest2) :: tail)
                  (decodeAux rev fuel (List.drop l rest2)) =
                Option.map (fun tail => utf8DecodeIgnore (List.take l rest2) :: tail)
                  (decodeAux rev fuel' (List.drop l rest2))
              rw [ih fuel' (rest2.drop l) (by omega) (by omega)]
          · rw [if_neg h0, if_neg h0]
            by_cases h2 : flag = 2
            · rw [if_pos h2, if_pos h2]
              cases rest with
              | nil => rfl
              | cons l rest2 =>
                simp only [List.length_cons] at h h'
                have hlen : (rest2.drop l).length ≤ rest2.length := by
                  simp [List.length_drop]
                show Option.map (fun tail => utf8DecodeIgnore (List.take l rest2) :: tail)
                    (decodeAux rev fuel (List.drop l rest2)) =
                  Option.map (fun tail => utf8DecodeIgnore (List.take l rest2) :: tail)
                    (decodeAux rev fuel' (List.drop l rest2))
                rw [ih fuel' (rest2.drop l) (by omega) (by omega)]
            · rw [if_neg h2, if_neg h2]
              exact ih fuel' rest (by omega) (by omega)

theorem decodeAux_isSome (rev : List (Nat × List Char)) :
    ∀ (fuel : Nat) (data : List Nat), data.length ≤ fuel →
      (decodeAux rev fuel data).isSome = true := by
  intro fuel
  induction fuel with
  | zero =>
    intro data h
    have hdata : data = [] := List.eq_nil_of_length_eq_zero (Nat.le_zero.mp h)
    subst hdata
    simp [decodeAux_nil]
  | succ fuel ih =>
    intro data h
    cases data with
    | nil => simp [decodeAux_nil]
    | cons flag rest =>
      simp only [List.length_cons] at h
      simp only [decodeAux]
      by_cases h1 : flag = 1
      · rw [if_pos h1]
        cases rest with
        | nil => rfl
        | cons b0 r0 =>
          cases r0 with
          | nil => rfl
          | cons b1 r1 =>
            cases r1 with
            | nil => rfl
            | cons b2 rest2 =>
              simp only [List.length_cons] at h
              show (Option.map
                  (fun tail => (pyDictGet rev (bytes3_to_int b0 b1 b2)).getD [] :: tail)
                  (decodeAux rev fuel rest2)).isSome = true
              rw [Option.isSome_map']
              exact ih rest2 (by omega)
      · rw [if_neg h1]
        by_cases h0 : flag = 0
        · rw [if_pos h0]
          cases rest with
          | nil => rfl
          | cons l rest2 =>
            simp only [List.length_cons] at h
            have hlen : (rest2.drop l).length ≤ rest2.length := by
              simp [List.length_drop]
            show (Option.map (fun tail => utf8DecodeIgnore (List.take l rest2) :: tail)
                (decodeAux rev fuel (List.drop l rest2))).isSome = true
            rw [Option.isSome_map']
            exact ih (rest2.drop l) (by omega)
        · rw [if_neg h0]
          by_cases h2 : flag = 2
          · rw [if_pos h2]
            cases rest with
            | nil => rfl
            | cons l rest2 =>
              simp only [List.length_cons] at h
              have hlen : (rest2.drop l).length ≤ rest2.length := by
                simp [List.length_drop]
              show (Option.map (fun tail => utf8DecodeIgnore (List.take l rest2) :: tail)
                  (decodeAux rev fuel (List.drop l rest2))).isSome = true
              rw [Option.isSome_map']
              exact ih (rest2.drop l) (by omega)
          · rw [if_neg h2]
            exact ih rest (by omega)

theorem decodeAux_eq_some (rev : List (Nat × List Char)) (data : List Nat) (fuel : Nat)
    (h : data.length ≤ fuel) :
    decodeAux rev fuel data = some (decodeList rev data) := by
  rw [decodeAux_fuel rev fuel data.length data h (Nat.le_refl _)]
  have hs := decodeAux_isSome rev data.length data (Nat.le_refl _)
  unfold decodeList
  cases hEq : decodeAux rev data.length data with
  | none => rw [hEq] at hs; simp at hs
  | some x => simp

/-! ## Decoder step lemmas -/

theorem decodeList_nil (rev : List (Nat × List Char)) : decodeList rev [] = [] := rfl

theorem decodeList_tag1 (rev : List (Nat × List Char)) (b0 b1 b2 : Nat) (tail : List Nat) :
    decodeList rev (1 :: b0 :: b1 :: b2 :: tail) =
      (pyDictGet rev (bytes3_to_int b0 b1 b2)).getD [] :: decodeList rev tail := by
  show (Option.map (fun x => (pyDictGet rev (bytes3_to_int b0 b1 b2)).getD [] :: x)
      (decodeAux rev (tail.length + 1 + 1 + 1) tail)).getD [] =
    (pyDictGet rev (bytes3_to_int b0 b1 b2)).getD [] :: decodeList rev tail
  rw [decodeAux_eq_some rev tail _ (by omega)]
  rfl

theorem decodeList_tagL (rev : List (Nat × List Char)) (t l : Nat) (ht : t = 0 ∨ t = 2)
    (payload tail : List Nat) (hlen : payload.length = l) :
    decodeList rev (t :: l :: (payload ++ tail)) =
      utf8DecodeIgnore payload :: decodeList rev tail := by
  have hb : tail.length ≤ (payload ++ tail).length + 1 := by
    simp only [List.length_append]
    omega
  rcases ht with rfl | rfl
  · show (Option.map (fun x => utf8DecodeIgnore (List.take l (payload ++ tail)) :: x)
        (decodeAux rev ((payload ++ tail).length + 1) (List.drop l (payload ++ tail)))).getD [] =
      utf8DecodeIgnore payload :: decodeList rev tail
    rw [List.take_left' hlen, List.drop_left' hlen, decodeAux_eq_some rev tail _ hb]
    rfl
  · show (Option.map (fun x => utf8DecodeIgnore (List.take l (payload ++ tail)) :: x)
        (decodeAux rev ((payload ++ tail).length + 1) (List.drop l (payload ++ tail)))).getD [] =
      utf8DecodeIgnore payload :: decodeList rev tail
    rw [List.take_left' hlen, List.drop_left' hlen, decodeAux_eq_some rev tail _ hb]
    rfl

theorem decodeList_skip (rev : List (Nat × List Char)) (flag : Nat) (h1 : flag ≠ 1)
    (h0 : flag ≠ 0) (h2 : flag ≠ 2) (rest : List Nat) :
    decodeList rev (flag :: rest) = decodeList rev rest := by
  show (decodeAux rev (rest.length + 1) (flag :: rest)).getD [] = decodeList rev rest
  simp only [decodeAux]
  rw [if_neg h1, if_neg h0, if_neg h2]
  rfl

theorem decodeList_tag1_short (rev : List (Nat × List Char)) (rest : List Nat)
    (h : rest.length < 3) : decodeList rev (1 :: rest) = [] := by
  cases rest with
  | nil => rfl
  | cons b0 r0 =>
    cases r0 with
    | nil => rfl
    | cons b1 r1 =>
      cases r1 with
      | nil => rfl
      | cons b2 r2 =>
        simp only [List.length_cons] at h
        omega

theorem decodeList_tagL_one (rev : List (Nat × List Char)) (t : Nat) (ht : t = 0 ∨ t = 2) :
    decodeList rev [t] = [] := by
  rcases ht with rfl | rfl <;> rfl

theorem decodeList_tagL_short (rev : List (Nat × List Char)) (t l : Nat) (ht : t = 0 ∨ t = 2)
    (payload : List Nat) (h : payload.length < l) :
    decodeList rev (t :: l :: payload) = [utf8DecodeIgnore payload] := by
  rcases ht with rfl | rfl
  · show (Option.map (fun x => utf8DecodeIgnore (List.take l payload) :: x)
        (decodeAux rev (payload.length + 1) (List.drop l payload))).getD [] =
      [utf8DecodeIgnore payload]
    rw [List.take_of_length_le (Nat.le_of_lt h), List.drop_eq_nil_of_le (Nat.le_of_lt h),
      decodeAux_nil]
    rfl
  · show (Option.map (fun x => utf8DecodeIgnore (List.take l payload) :: x)
        (decodeAux rev (payload.length + 1) (List.drop l payload))).getD [] =
      [utf8DecodeIgnore payload]
    rw [List.take_of_length_le (Nat.le_of_lt h), List.drop_eq_nil_of_le (Nat.le_of_lt h),
      decodeAux_nil]
    rfl

/-! ## Claims C4, C5, C6, C10 -/

/-- Counterexample to claim C4: on the stream `[5, 2, 1, 32]` the decoder
does not stop at the unknown tag `5`; the tag-2 record after it still
contributes a space, so the result is `" "`, not `""`. -/
theorem claim_C4_counterexample :
    decompress_text_with_dictionary [5, 2, 1, 32] [] = [Char.ofNat 32] ∧
      decompress_text_with_dictionary [5, 2, 1, 32] [] ≠ [] := by
  constructor
  · decide
  · decide

/-- Claim C4 as amended: when the decoder reads a tag byte other than 0, 1
or 2, it silently skips that single byte and continues decoding from the
next byte (the bytes after the unknown tag still contribute). -/
theorem claim_C4_amended (dictionary : List (List Char × Nat)) (flag : Nat)
    (h1 : flag ≠ 1) (h0 : flag ≠ 0) (h2 : flag ≠ 2) (rest : List Nat) :
    decompress_text_with_dictionary (flag :: rest) dictionary =
      decompress_text_with_dictionary rest dictionary := by
  unfold decompress_text_with_dictionary
  rw [decodeList_skip _ flag h1 h0 h2 rest]

/-- Witness for the amended C4 at tag byte `7`. -/
theorem claim_C4_amended_witness :
    decompress_text_with_dictionary [7, 2, 1, 32] [] =
      decompress_text_with_dictionary [2, 1, 32] [] :=
  claim_C4_amended [] 7 (by decide) (by decide) (by decide) [2, 1, 32]

/-- Counterexample to claim C5: the stream `[0, 3, 97]` ends mid-record
(length byte 3 but only one payload byte), yet the incomplete record still
contributes: the decoder returns `"a"`, not the empty partial result. -/
theorem claim_C5_counterexample :
    decompress_text_with_dictionary [0, 3, 97] [] = ['a'] ∧
      decompress_text_with_dictionary [0, 3, 97] [] ≠ [] := by
  constructor
  · decide
  · decide

/-- Claim C5 as amended: a tag-1 record with fewer than 3 id bytes stops
decoding with no contribution; a tag-0/2 record missing its length byte
stops with no contribution; but a tag-0/2 record with fewer than `L`
payload bytes available contributes the lossy UTF-8 decoding of the bytes
that are available, and then decoding stops. -/
theorem claim_C5_amended (dictionary : List (List Char × Nat)) :
    (∀ rest : List Nat, rest.length < 3 →
      decompress_text_with_dictionary (1 :: rest) dictionary = []) ∧
    (∀ t : Nat, t = 0 ∨ t = 2 →
      decompress_text_with_dictionary [t] dictionary = []) ∧
    (∀ (t l : Nat) (payload : List Nat), t = 0 ∨ t = 2 → payload.length < l →
      decompress_text_with_dictionary (t :: l :: payload) dictionary =
        utf8DecodeIgnore payload) := by
  refine ⟨fun rest h => ?_, fun t ht => ?_, fun t l payload ht h => ?_⟩
  · unfold decompress_text_with_dictionary
    rw [decodeList_tag1_short _ rest h]
    rfl
  · unfold decompress_text_with_dictionary
    rw [decodeList_tagL_one _ t ht]
    rfl
  · unfold decompress_text_with_dictionary
    rw [decodeList_tagL_short _ t l ht payload h]
    simp

/-- Witness for the amended C5 on three truncated streams; the third has a
payload cut inside a 3-byte UTF-8 sequence, where the lossy decode keeps
the byte after the dropped leader. -/
theorem claim_C5_amended_witness :
    decompress_text_with_dictionary [1, 5] [] = [] ∧
      decompress_text_with_dictionary [2] [] = [] ∧
      decompress_text_with_dictionary [0, 3, 228, 65] [] = utf8DecodeIgnore [228, 65] :=
  ⟨(claim_C5_amended []).1 [5] (by decide),
    (claim_C5_amended []).2.1 2 (Or.inr rfl),
    (claim_C5_amended []).2.2 0 3 [228, 65] (Or.inl rfl) (by decide)⟩

/-- Claim C6: a tag-1 record whose 24-bit id is absent from the reverse
index contributes the empty string, and decoding continues with the
following records. -/
theorem claim_C6 (dictionary : List (List Char × Nat)) (b0 b1 b2 : Nat)
    (rest : List Nat)
    (h : pyDictGet (revDict dictionary) (bytes3_to_int b0 b1 b2) = none) :
    decompress_text_with_dictionary (1 :: b0 :: b1 :: b2 :: rest) dictionary =
      decompress_text_with_dictionary rest dictionary := by
  unfold decompress_text_with_dictionary
  rw [decodeList_tag1 _ b0 b1 b2 rest, h]
  rfl

/-- Witness for C6: id 0 is absent from the empty dictionary, and the
following tag-2 record is still decoded. -/
theorem claim_C6_witness :
    decompress_text_with_dictionary [1, 0, 0, 0, 2, 1, 32] [] =
      decompress_text_with_dictionary [2, 1, 32] [] :=
  claim_C6 [] 0 0 0 [2, 1, 32] (by decide)

/-- Claim C10: the decoding loop is total: the cursor advances by at least
one byte per iteration, so a fuel of one unit per input byte (or more)
always suffices: the loop yields a result `toks` (no fuel exhaustion) and
`decompress_text_with_dictionary` returns its concatenation. -/
theorem claim_C10 (dictionary : List (List Char × Nat)) (data : List Nat) (fuel : Nat)
    (h : data.length ≤ fuel) :
    ∃ toks, decodeAux (revDict dictionary) fuel data = some toks ∧
      decompress_text_with_dictionary data dictionary = toks.flatten :=
  ⟨decodeList (revDict dictionary) data, decodeAux_eq_some _ _ _ h, rfl⟩

/-- Witness for C10 on a concrete stream with surplus fuel. -/
theorem claim_C10_witness :
    ∃ toks, decodeAux (revDict []) 10 [2, 1, 32] = some toks ∧
      decompress_text_with_dictionary [2, 1, 32] [] = toks.flatten :=
  claim_C10 [] [2, 1, 32] 10 (by decide)

/-! ## Dictionary lemmas -/

theorem find_map_update {α β : Type} [DecidableEq α] (d : List (α × β)) (k : α) (v : β) :
    (d.map (fun p => if p.1 = k then (k, v) else p)).find? (fun p => decide (p.1 = k)) =
      if d.any (fun p => decide (p.1 = k)) then some (k, v) else none := by
  induction d with
  | nil => rfl
  | cons p rest ih =>
    by_cases h : p.1 = k
    · rw [List.map_cons, if_pos h, List.any_cons]
      rw [List.find?_cons_of_pos _ (by simp)]
      rw [if_pos (by simp [h])]
    · rw [List.map_cons, if_neg h, List.any_cons]
      rw [List.find?_cons_of_neg _ (by simp [h])]
      rw [ih]
      rw [decide_eq_false h, Bool.false_or]

theorem pyDictGet_set_self {α β : Type} [DecidableEq α] (d : List (α × β)) (k : α) (v : β) :
    pyDictGet (pyDictSet d k v) k = some v := by
  unfold pyDictSet pyDictGet
  by_cases h : d.any (fun p => decide (p.1 = k)) = true
  · rw [if_pos h, find_map_update, if_pos h]
    rfl
  · rw [if_neg h, List.find?_append]
    have hd : d.find? (fun p => decide (p.1 = k)) = none := by
      rw [List.find?_eq_none]
      intro p hp
      simp only [decide_eq_true_eq]
      intro hpk
      exact h (List.any_eq_true.mpr ⟨p, hp, by simp [hpk]⟩)
    rw [hd]
    simp

theorem find_map_update_ne {α β : Type} [DecidableEq α] (d : List (α × β)) (k w : α)
    (v : β) (hne : w ≠ k) :
    (d.map (fun p => if p.1 = k then (k, v) else p)).find? (fun p => decide (p.1 = w)) =
      d.find? (fun p => decide (p.1 = w)) := by
  induction d with
  | nil => rfl
  | cons p rest ih =>
    rw [List.map_cons]
    by_cases hpk : p.1 = k
    · rw [if_pos hpk]
      rw [List.find?_cons_of_neg _
        (by simp only [decide_eq_true_eq]; exact fun h => hne h.symm)]
      rw [List.find?_cons_of_neg _ (by
        simp only [decide_eq_true_eq]
        intro h
        rw [hpk] at h
        exact hne h.symm)]
      exact ih
    · rw [if_neg hpk]
      by_cases hpw : p.1 = w
      · rw [List.find?_cons_of_pos _ (by simp [hpw]),
          List.find?_cons_of_pos _ (by simp [hpw])]
      · rw [List.find?_cons_of_neg _ (by simp [hpw]),
          List.find?_cons_of_neg _ (by simp [hpw])]
        exact ih

theorem pyDictGet_set_ne {α β : Type} [DecidableEq α] (d : List (α × β)) (k w : α)
    (v : β) (hne : w ≠ k) : pyDictGet (pyDictSet d k v) w = pyDictGet d w := by
  unfold pyDictSet pyDictGet
  by_cases h : d.any (fun p => decide (p.1 = k)) = true
  · rw [if_pos h, find_map_update_ne d k w v hne]
  · rw [if_neg h, List.find?_append]
    have hone : List.find? (fun p => decide (p.1 = w)) [(k, v)] = none := by
      rw [List.find?_cons_of_neg _
        (by simp only [decide_eq_true_eq]; exact fun h2 => hne h2.symm)]
      rfl
    rw [hone, Option.or_none]

theorem loadDictAux_stop (max_lines idx : Nat) (hidx : idx ≥ max_lines)
    (lines : List (List Char)) (d : List (List Char × Nat)) :
    loadDictAux max_lines idx lines d = d := by
  cases lines with
  | nil => rfl
  | cons line rest => rw [loadDictAux, if_pos hidx]

theorem loadDictAux_split (max_lines : Nat) (xs : List (List Char)) :
    ∀ (ys : List (List Char)) (idx : Nat) (d : List (List Char × Nat)),
      loadDictAux max_lines idx (xs ++ ys) d =
        loadDictAux max_lines (idx + xs.length) ys (loadDictAux max_lines idx xs d) := by
  induction xs with
  | nil =>
    intro ys idx d
    simp only [List.nil_append, List.length_nil, Nat.add_zero]
    rfl
  | cons x xs ih =>
    intro ys idx d
    by_cases hidx : idx ≥ max_lines
    · rw [loadDictAux_stop max_lines idx hidx, loadDictAux_stop max_lines idx hidx,
        loadDictAux_stop max_lines (idx + (x :: xs).length) (by omega)]
    · rw [List.cons_append, loadDictAux, if_neg hidx, ih ys (idx + 1)]
      rw [show loadDictAux max_lines idx (x :: xs) d =
          loadDictAux max_lines (idx + 1) xs
            (match firstField x with
             | some w => pyDictSet d w idx
             | none => d) from by rw [loadDictAux, if_neg hidx]]
      have hlen : idx + (x :: xs).length = idx + 1 + xs.length := by
        simp only [List.length_cons]
        omega
      rw [hlen]

theorem loadDictAux_get_skip (max_lines : Nat) (w : List Char) :
    ∀ (lines : List (List Char)) (idx : Nat) (d : List (List Char × Nat)),
      (∀ l2 ∈ lines.take (max_lines - idx), firstField l2 ≠ some w) →
      pyDictGet (loadDictAux max_lines idx lines d) w = pyDictGet d w := by
  intro lines
  induction lines with
  | nil => intro idx d _; rfl
  | cons line rest ih =>
    intro idx d h
    by_cases hidx : idx ≥ max_lines
    · rw [loadDictAux_stop max_lines idx hidx]
    · have hmem : line ∈ (line :: rest).take (max_lines - idx) := by
        have h1 : max_lines - idx = (max_lines - (idx + 1)) + 1 := by omega
        rw [h1, List.take_succ_cons]
        exact List.mem_cons_self _ _
      have hrest : ∀ l2 ∈ rest.take (max_lines - (idx + 1)), firstField l2 ≠ some w := by
        intro l2 hl2
        apply h
        have h1 : max_lines - idx = (max_lines - (idx + 1)) + 1 := by omega
        rw [h1, List.take_succ_cons]
        exact List.mem_cons_of_mem _ hl2
      rw [loadDictAux, if_neg hidx, ih (idx + 1) _ hrest]
      cases hf : firstField line with
      | none => rfl
      | some w2 =>
        have hw2 : w ≠ w2 := by
          intro heq
          exact h line hmem (by rw [hf, heq])
        exact pyDictGet_set_ne d w2 w idx hw2

/-! ## Claims C2 and C3 -/

/-- Counterexample to claim C3: with the word list `["a", "a"]` the word
maps to the id of its second line, not the first. -/
theorem claim_C3_counterexample :
    pyDictGet (load_dictionary_from_file [['a'], ['a']] (2 ^ 24)) ['a'] = some 1 ∧
      pyDictGet (load_dictionary_from_file [['a'], ['a']] (2 ^ 24)) ['a'] ≠ some 0 := by
  constructor
  · decide
  · decide

/-- Claim C3 as amended: plain dict assignment makes the later occurrence
win: for any word list in which line `l` (at any position within the line
cap) has first field `w` and no later line within the cap has first field
`w`, the word maps to the id of that last occurrence, whatever earlier
lines said. -/
theorem claim_C3_amended (lines1 lines2 : List (List Char)) (l w : List Char)
    (h1 : lines1.length < 2 ^ 24) (h2 : firstField l = some w)
    (h3 : ∀ l2 ∈ lines2.take (2 ^ 24 - (lines1.length + 1)), firstField l2 ≠ some w) :
    pyDictGet (load_dictionary_from_file (lines1 ++ l :: lines2) (2 ^ 24)) w =
      some lines1.length := by
  unfold load_dictionary_from_file
  rw [loadDictAux_split (2 ^ 24) lines1 (l :: lines2) 0 []]
  rw [show (0 : Nat) + lines1.length = lines1.length from by omega]
  rw [loadDictAux, if_neg (by omega), h2]
  rw [loadDictAux_get_skip (2 ^ 24) w lines2 (lines1.length + 1) _ h3]
  show pyDictGet
      (pyDictSet (loadDictAux (2 ^ 24) 0 lines1 []) w lines1.length) w =
    some lines1.length
  exact pyDictGet_set_self _ w lines1.length

/-- Witness for the amended C3: word list `["a", "a", "b"]` binds `"a"` to
id 1, the line of its last occurrence, with a line after it. -/
theorem claim_C3_amended_witness :
    pyDictGet (load_dictionary_from_file ([['a']] ++ ['a'] :: [['b']]) (2 ^ 24)) ['a'] =
      some 1 :=
  claim_C3_amended [['a']] [['b']] ['a'] ['a'] (by decide) (by decide) (by decide)

/-! ## Claim C2 -/

theorem encodeTokens_none (dictionary : List (List Char × Nat)) (tokens : List (List Char))
    (t : List Char) (hmem : t ∈ tokens) (hnone : encodeToken dictionary t = none) :
    encodeTokens dictionary tokens = none := by
  induction tokens with
  | nil => simp at hmem
  | cons a rest ih =>
    rcases List.mem_cons.mp hmem with rfl | hmem
    · show (match encodeToken dictionary t with
        | none => none
        | some r =>
          match encodeTokens dictionary rest with
          | none => none
          | some rs => some (r ++ rs)) = none
      rw [hnone]
    · show (match encodeToken dictionary a with
        | none => none
        | some r =>
          match encodeTokens dictionary rest with
          | none => none
          | some rs => some (r ++ rs)) = none
      rw [ih hmem]
      cases encodeToken dictionary a <;> rfl

set_option maxRecDepth 40000 in
/-- Counterexample to claim C2: a whitespace run of 300 spaces does not
encode to a truncated literal record; `bytearray.append(300)` raises, so
compression fails and produces no output at all. -/
theorem claim_C2_counterexample :
    compress_text_with_dictionary (List.replicate 300 (Char.ofNat 32)) [] = none := by
  decide

/-- Claim C2 as amended: a token whose UTF-8 encoding exceeds 255 bytes
makes the encoder fail (the length byte cannot be appended), whenever that
token is a whitespace run or a word absent from the dictionary; nothing is
emitted, and no truncation happens. -/
theorem claim_C2_amended (text : List Char) (dictionary : List (List Char × Nat))
    (t : List Char) (hmem : t ∈ tokenize text)
    (hlen : 255 < (utf8EncodeStr t).length)
    (hlit : pyStrIsSpace t = true ∨ pyDictGet dictionary t = none) :
    compress_text_with_dictionary text dictionary = none := by
  apply encodeTokens_none dictionary _ t hmem
  unfold encodeToken
  rcases hlit with hsp | hget
  · rw [if_pos hsp]
    show (if (utf8EncodeStr t).length ≤ 255 then
        some (2 :: (utf8EncodeStr t).length :: utf8EncodeStr t)
      else none) = none
    rw [if_neg (by omega)]
  · by_cases hsp : pyStrIsSpace t = true
    · rw [if_pos hsp]
      show (if (utf8EncodeStr t).length ≤ 255 then
          some (2 :: (utf8EncodeStr t).length :: utf8EncodeStr t)
        else none) = none
      rw [if_neg (by omega)]
    · rw [if_neg hsp, hget]
      show (if (utf8EncodeStr t).length ≤ 255 then
          some (0 :: (utf8EncodeStr t).length :: utf8EncodeStr t)
        else none) = none
      rw [if_neg (by omega)]

set_option maxRecDepth 40000 in
/-- Witness for the amended C2: a 256-character unknown word aborts
compression. -/
theorem claim_C2_amended_witness :
    compress_text_with_dictionary (List.replicate 256 'a') [] = none :=
  claim_C2_amended (List.replicate 256 'a') [] (List.replicate 256 'a')
    (by decide) (by decide) (Or.inr (by decide))

/-! ## UTF-8 round trip -/

theorem utf8Decode_one (b : Nat) (hb : b < 128) (r : List Nat) :
    utf8DecodeIgnore (b :: r) = Char.ofNat b :: utf8DecodeIgnore r := by
  cases r with
  | nil =>
    conv_lhs => rw [utf8DecodeIgnore]
    rw [if_pos hb]
    rfl
  | cons x r2 =>
    cases r2 with
    | nil =>
      conv_lhs => rw [utf8DecodeIgnore]
      rw [if_pos hb]
    | cons y r3 =>
      cases r3 with
      | nil =>
        conv_lhs => rw [utf8DecodeIgnore]
        rw [if_pos hb]
      | cons z r4 =>
        conv_lhs => rw [utf8DecodeIgnore]
        rw [if_pos hb]

theorem utf8Decode_two (b b1 : Nat) (r : List Nat) (hb : 192 ≤ b) (hb2 : b < 224)
    (hc : 128 ≤ b1 ∧ b1 < 192) (hn : 128 ≤ (b - 192) * 64 + (b1 - 128)) :
    utf8DecodeIgnore (b :: b1 :: r) =
      Char.ofNat ((b - 192) * 64 + (b1 - 128)) :: utf8DecodeIgnore r := by
  cases r with
  | nil =>
    conv_lhs => rw [utf8DecodeIgnore]
    rw [if_neg (show ¬(b < 128) from by omega),
      if_neg (show ¬(b < 192) from by omega), if_pos hb2, if_pos hc, if_pos hn]
    rfl
  | cons x r2 =>
    cases r2 with
    | nil =>
      conv_lhs => rw [utf8DecodeIgnore]
      rw [if_neg (show ¬(b < 128) from by omega),
        if_neg (show ¬(b < 192) from by omega), if_pos hb2, if_pos hc, if_pos hn]
    | cons y r3 =>
      conv_lhs => rw [utf8DecodeIgnore]
      rw [if_neg (show ¬(b < 128) from by omega),
        if_neg (show ¬(b < 192) from by omega), if_pos hb2, if_pos hc, if_pos hn]

theorem utf8Decode_three (b b1 b2 : Nat) (r : List Nat) (hb : 224 ≤ b) (hb2 : b < 240)
    (hc : (128 ≤ b1 ∧ b1 < 192) ∧ (128 ≤ b2 ∧ b2 < 192))
    (hn : 2048 ≤ (b - 224) * 4096 + (b1 - 128) * 64 + (b2 - 128) ∧
      ¬(55296 ≤ (b - 224) * 4096 + (b1 - 128) * 64 + (b2 - 128) ∧
        (b - 224) * 4096 + (b1 - 128) * 64 + (b2 - 128) < 57344)) :
    utf8DecodeIgnore (b :: b1 :: b2 :: r) =
      Char.ofNat ((b - 224) * 4096 + (b1 - 128) * 64 + (b2 - 128)) ::
        utf8DecodeIgnore r := by
  cases r with
  | nil =>
    conv_lhs => rw [utf8DecodeIgnore]
    rw [if_neg (show ¬(b < 128) from by omega),
      if_neg (show ¬(b < 192) from by omega), if_neg (show ¬(b < 224) from by omega),
      if_pos hb2, if_pos hc, if_pos hn]
    rfl
  | cons x r2 =>
    conv_lhs => rw [utf8DecodeIgnore]
    rw [if_neg (show ¬(b < 128) from by omega),
      if_neg (show ¬(b < 192) from by omega), if_neg (show ¬(b < 224) from by omega),
      if_pos hb2, if_pos hc, if_pos hn]

theorem utf8Decode_four (b b1 b2 b3 : Nat) (r : List Nat) (hb : 240 ≤ b) (hb2 : b < 248)
    (hc : ((128 ≤ b1 ∧ b1 < 192) ∧ (128 ≤ b2 ∧ b2 < 192)) ∧ (128 ≤ b3 ∧ b3 < 192))
    (hn : 65536 ≤ (b - 240) * 262144 + (b1 - 128) * 4096 + (b2 - 128) * 64 + (b3 - 128) ∧
      (b - 240) * 262144 + (b1 - 128) * 4096 + (b2 - 128) * 64 + (b3 - 128) < 1114112) :
    utf8DecodeIgnore (b :: b1 :: b2 :: b3 :: r) =
      Char.ofNat ((b - 240) * 262144 + (b1 - 128) * 4096 + (b2 - 128) * 64 + (b3 - 128)) ::
        utf8DecodeIgnore r := by
  conv_lhs => rw [utf8DecodeIgnore]
  rw [if_neg (show ¬(b < 128) from by omega),
    if_neg (show ¬(b < 192) from by omega), if_neg (show ¬(b < 224) from by omega),
    if_neg (show ¬(b < 240) from by omega), if_pos hb2, if_pos hc, if_pos hn]

theorem utf8DecodeIgnore_encodeChar (c : Char) (r : List Nat) :
    utf8DecodeIgnore (utf8EncodeChar c ++ r) = c :: utf8DecodeIgnore r := by
  have hv : c.toNat < 55296 ∨ (57343 < c.toNat ∧ c.toNat < 1114112) := c.valid
  have hofn : Char.ofNat c.toNat = c := Char.ofNat_toNat c
  unfold utf8EncodeChar
  generalize hg : c.toNat = n at hv hofn ⊢
  by_cases h1 : n < 128
  · rw [if_pos h1]
    simp only [List.cons_append, List.nil_append]
    rw [utf8Decode_one n h1 r, hofn]
  · by_cases h2 : n < 2048
    · rw [if_neg h1, if_pos h2]
      simp only [List.cons_append, List.nil_append]
      rw [utf8Decode_two (192 + n / 64) (128 + n % 64) r (by omega) (by omega)
        (by omega) (by omega)]
      rw [show (192 + n / 64 - 192) * 64 + (128 + n % 64 - 128) = n from by omega, hofn]
    · by_cases h3 : n < 65536
      · rw [if_neg h1, if_neg h2, if_pos h3]
        have hdd : n / 64 / 64 = n / 4096 := by rw [Nat.div_div_eq_div_mul]
        simp only [List.cons_append, List.nil_append]
        rw [utf8Decode_three (224 + n / 4096) (128 + n / 64 % 64) (128 + n % 64) r
          (by omega) (by omega) (by omega) (by omega)]
        rw [show (224 + n / 4096 - 224) * 4096 + (128 + n / 64 % 64 - 128) * 64 +
          (128 + n % 64 - 128) = n from by omega, hofn]
      · rw [if_neg h1, if_neg h2, if_neg h3]
        have hdd : n / 64 / 64 = n / 4096 := by rw [Nat.div_div_eq_div_mul]
        have hdd2 : n / 4096 / 64 = n / 262144 := by rw [Nat.div_div_eq_div_mul]
        have hup : n < 1114112 := by omega
        simp only [List.cons_append, List.nil_append]
        rw [utf8Decode_four (240 + n / 262144) (128 + n / 4096 % 64) (128 + n / 64 % 64)
          (128 + n % 64) r (by omega) (by omega) (by omega) (by omega)]
        rw [show (240 + n / 262144 - 240) * 262144 + (128 + n / 4096 % 64 - 128) * 4096 +
          (128 + n / 64 % 64 - 128) * 64 + (128 + n % 64 - 128) = n from by omega, hofn]

theorem utf8DecodeIgnore_encodeStr_append (s : List Char) :
    ∀ r : List Nat, utf8DecodeIgnore (utf8EncodeStr s ++ r) = s ++ utf8DecodeIgnore r := by
  induction s with
  | nil => intro r; rfl
  | cons c cs ih =>
    intro r
    show utf8DecodeIgnore ((utf8EncodeChar c ++ utf8EncodeStr cs) ++ r) =
      (c :: cs) ++ utf8DecodeIgnore r
    rw [List.append_assoc, utf8DecodeIgnore_encodeChar, ih]
    rfl

theorem utf8DecodeIgnore_encodeStr (s : List Char) :
    utf8DecodeIgnore (utf8EncodeStr s) = s := by
  have h := utf8DecodeIgnore_encodeStr_append s []
  rw [List.append_nil] at h
  rw [h]
  show s ++ ([] : List Char) = s
  rw [List.append_nil]

/-! ## Dictionary invariants and reverse lookup -/

theorem mem_pyDictSet {α β : Type} [DecidableEq α] (d : List (α × β)) (k : α) (v : β)
    (p : α × β) (hp : p ∈ pyDictSet d k v) : p ∈ d ∨ p.2 = v := by
  unfold pyDictSet at hp
  by_cases h : d.any (fun q => decide (q.1 = k)) = true
  · rw [if_pos h] at hp
    obtain ⟨q, hq, hfq⟩ := List.mem_map.mp hp
    by_cases hqk : q.1 = k
    · rw [if_pos hqk] at hfq
      right
      rw [← hfq]
    · rw [if_neg hqk] at hfq
      left
      rw [← hfq]
      exact hq
  · rw [if_neg h] at hp
    rcases List.mem_append.mp hp with h1 | h1
    · exact Or.inl h1
    · right
      simp only [List.mem_singleton] at h1
      rw [h1]

theorem keys_map_update {α β : Type} [DecidableEq α] (d : List (α × β)) (k : α) (v : β) :
    (d.map (fun p => if p.1 = k then (k, v) else p)).map Prod.fst = d.map Prod.fst := by
  rw [List.map_map]
  apply List.map_congr_left
  intro p _
  by_cases h : p.1 = k
  · rw [Function.comp_apply, if_pos h]
    exact h.symm
  · rw [Function.comp_apply, if_neg h]

theorem vals_update_mem {α β : Type} [DecidableEq α] (d : List (α × β)) (k : α) (v : β)
    (x : β) (hx : x ∈ (d.map (fun p => if p.1 = k then (k, v) else p)).map Prod.snd) :
    x ∈ d.map Prod.snd ∨ x = v := by
  rw [List.map_map] at hx
  obtain ⟨p, hp, hfp⟩ := List.mem_map.mp hx
  by_cases h : p.1 = k
  · right
    rw [Function.comp_apply, if_pos h] at hfp
    exact hfp.symm
  · left
    rw [Function.comp_apply, if_neg h] at hfp
    exact List.mem_map.mpr ⟨p, hp, hfp⟩

theorem vals_nodup_update {α β : Type} [DecidableEq α] (d : List (α × β)) (k : α) (v : β)
    (hk : (d.map Prod.fst).Nodup) (hv : (d.map Prod.snd).Nodup)
    (hfresh : ∀ p ∈ d, p.2 ≠ v) :
    ((d.map (fun p => if p.1 = k then (k, v) else p)).map Prod.snd).Nodup := by
  induction d with
  | nil => simp
  | cons p rest ih =>
    simp only [List.map_cons, List.nodup_cons] at hk hv ⊢
    by_cases h : p.1 = k
    · rw [if_pos h]
      have hrest : rest.map (fun q => if q.1 = k then (k, v) else q) = rest := by
        have hid : rest.map (fun q => if q.1 = k then (k, v) else q) = rest.map id := by
          apply List.map_congr_left
          intro q hq
          have hqk : q.1 ≠ k := by
            intro hqk
            apply hk.1
            rw [h, ← hqk]
            exact List.mem_map.mpr ⟨q, hq, rfl⟩
          rw [if_neg hqk]
          rfl
        rw [hid, List.map_id]
      rw [hrest]
      refine ⟨?_, hv.2⟩
      intro hvin
      obtain ⟨q, hq, hq2⟩ := List.mem_map.mp hvin
      exact hfresh q (List.mem_cons_of_mem p hq) hq2
    · rw [if_neg h]
      refine ⟨?_, ih hk.2 hv.2 (fun q hq => hfresh q (List.mem_cons_of_mem p hq))⟩
      intro hvin
      rcases vals_update_mem rest k v p.2 hvin with hin | heq
      · exact hv.1 hin
      · exact hfresh p (List.mem_cons_self p rest) heq

theorem pyDictSet_keys_nodup {α β : Type} [DecidableEq α] (d : List (α × β)) (k : α)
    (v : β) (hk : (d.map Prod.fst).Nodup) : ((pyDictSet d k v).map Prod.fst).Nodup := by
  unfold pyDictSet
  by_cases h : d.any (fun q => decide (q.1 = k)) = true
  · rw [if_pos h, keys_map_update]
    exact hk
  · rw [if_neg h, List.map_append]
    rw [List.nodup_append]
    refine ⟨hk, List.nodup_singleton k, ?_⟩
    intro a ha hb
    simp only [List.map_cons, List.map_nil, List.mem_singleton] at hb
    subst hb
    obtain ⟨p, hp, hpk⟩ := List.mem_map.mp ha
    exact absurd (List.any_eq_true.mpr ⟨p, hp, by simp [hpk]⟩) h

theorem pyDictSet_vals_nodup {α β : Type} [DecidableEq α] (d : List (α × β)) (k : α)
    (v : β) (hk : (d.map Prod.fst).Nodup) (hv : (d.map Prod.snd).Nodup)
    (hfresh : ∀ p ∈ d, p.2 ≠ v) : ((pyDictSet d k v).map Prod.snd).Nodup := by
  unfold pyDictSet
  by_cases h : d.any (fun q => decide (q.1 = k)) = true
  · rw [if_pos h]
    exact vals_nodup_update d k v hk hv hfresh
  · rw [if_neg h, List.map_append]
    rw [List.nodup_append]
    refine ⟨hv, List.nodup_singleton v, ?_⟩
    intro a ha hb
    simp only [List.map_cons, List.map_nil, List.mem_singleton] at hb
    subst hb
    obtain ⟨p, hp, hp2⟩ := List.mem_map.mp ha
    exact hfresh p hp hp2

theorem loadDictAux_inv (max_lines : Nat) :
    ∀ (lines : List (List Char)) (idx : Nat) (d : List (List Char × Nat)),
      (∀ p ∈ d, p.2 < idx) → (∀ p ∈ d, p.2 < max_lines) →
      (d.map Prod.fst).Nodup → (d.map Prod.snd).Nodup →
      (∀ p ∈ loadDictAux max_lines idx lines d, p.2 < max_lines) ∧
        ((loadDictAux max_lines idx lines d).map Prod.fst).Nodup ∧
        ((loadDictAux max_lines idx lines d).map Prod.snd).Nodup ∧
        (∀ p ∈ loadDictAux max_lines idx lines d, p.2 < idx + lines.length) := by
  intro lines
  induction lines with
  | nil =>
    intro idx d h1 h2 h3 h4
    exact ⟨h2, h3, h4, fun p hp => by have := h1 p hp; omega⟩
  | cons line rest ih =>
    intro idx d h1 h2 h3 h4
    by_cases hmax : idx ≥ max_lines
    · rw [show loadDictAux max_lines idx (line :: rest) d = d from by
        rw [loadDictAux, if_pos hmax]]
      refine ⟨h2, h3, h4, fun p hp => ?_⟩
      have := h1 p hp
      simp only [List.length_cons]
      omega
    · cases hf : firstField line with
      | none =>
        rw [show loadDictAux max_lines idx (line :: rest) d =
            loadDictAux max_lines (idx + 1) rest d from by
          rw [loadDictAux, if_neg hmax, hf]]
        have hr := ih (idx + 1) d (fun p hp => by have := h1 p hp; omega) h2 h3 h4
        refine ⟨hr.1, hr.2.1, hr.2.2.1, fun p hp => ?_⟩
        have := hr.2.2.2 p hp
        simp only [List.length_cons]
        omega
      | some w =>
        rw [show loadDictAux max_lines idx (line :: rest) d =
            loadDictAux max_lines (idx + 1) rest (pyDictSet d w idx) from by
          rw [loadDictAux, if_neg hmax, hf]]
        have hb1 : ∀ p ∈ pyDictSet d w idx, p.2 < idx + 1 := by
          intro p hp
          rcases mem_pyDictSet d w idx p hp with hin | heq
          · have := h1 p hin
            omega
          · omega
        have hb2 : ∀ p ∈ pyDictSet d w idx, p.2 < max_lines := by
          intro p hp
          rcases mem_pyDictSet d w idx p hp with hin | heq
          · exact h2 p hin
          · omega
        have hfresh : ∀ p ∈ d, p.2 ≠ idx := by
          intro p hp heq
          have := h1 p hp
          omega
        have hr := ih (idx + 1) (pyDictSet d w idx) hb1 hb2
          (pyDictSet_keys_nodup d w idx h3) (pyDictSet_vals_nodup d w idx h3 h4 hfresh)
        refine ⟨hr.1, hr.2.1, hr.2.2.1, fun p hp => ?_⟩
        have := hr.2.2.2 p hp
        simp only [List.length_cons]
        omega

theorem load_dictionary_good (lines : List (List Char)) (max_lines : Nat) :
    (∀ p ∈ load_dictionary_from_file lines max_lines, p.2 < max_lines) ∧
      ((load_dictionary_from_file lines max_lines).map Prod.fst).Nodup ∧
      ((load_dictionary_from_file lines max_lines).map Prod.snd).Nodup := by
  have h := loadDictAux_inv max_lines lines 0 [] (by simp) (by simp) (by simp) (by simp)
  exact ⟨h.1, h.2.1, h.2.2.1⟩

theorem revDict_foldl (rest : List (List Char × Nat)) :
    ∀ acc : List (Nat × List Char),
      (∀ q ∈ acc, ∀ p ∈ rest, q.1 ≠ p.2) → (rest.map Prod.snd).Nodup →
      rest.foldl (fun r p => pyDictSet r p.2 p.1) acc =
        acc ++ rest.map (fun p => (p.2, p.1)) := by
  induction rest with
  | nil => intro acc _ _; simp
  | cons p rest ih =>
    intro acc hdisj hnd
    simp only [List.map_cons, List.nodup_cons] at hnd
    simp only [List.foldl_cons, List.map_cons]
    have hany : acc.any (fun q => decide (q.1 = p.2)) ≠ true := by
      intro hany
      obtain ⟨q, hq, hqd⟩ := List.any_eq_true.mp hany
      simp only [decide_eq_true_eq] at hqd
      exact hdisj q hq p (List.mem_cons_self p rest) hqd
    have hset : pyDictSet acc p.2 p.1 = acc ++ [(p.2, p.1)] := by
      unfold pyDictSet
      rw [if_neg hany]
    rw [hset]
    rw [ih (acc ++ [(p.2, p.1)]) ?_ hnd.2]
    · rw [List.append_assoc]
      rfl
    · intro q hq p' hp'
      rcases List.mem_append.mp hq with hq | hq
      · exact hdisj q hq p' (List.mem_cons_of_mem p hp')
      · simp only [List.mem_singleton] at hq
        subst hq
        show p.2 ≠ p'.2
        intro heq
        apply hnd.1
        rw [heq]
        exact List.mem_map.mpr ⟨p', hp', rfl⟩

theorem revDict_eq_swap (d : List (List Char × Nat)) (hv : (d.map Prod.snd).Nodup) :
    revDict d = d.map (fun p => (p.2, p.1)) := by
  unfold revDict
  rw [revDict_foldl d [] (by intro q hq; simp at hq) hv]
  rw [List.nil_append]

theorem pyDictGet_val_mem {α β : Type} [DecidableEq α] (d : List (α × β)) (w : α) (c : β)
    (h : pyDictGet d w = some c) : c ∈ d.map Prod.snd := by
  unfold pyDictGet at h
  cases hf : d.find? (fun p => decide (p.1 = w)) with
  | none => rw [hf] at h; simp at h
  | some p =>
    rw [hf] at h
    simp only [Option.map_some'] at h
    have hpc : p.2 = c := by
      cases h
      rfl
    exact List.mem_map.mpr ⟨p, List.mem_of_find?_eq_some hf, hpc⟩

theorem pyDictGet_map_swap (d : List (List Char × Nat)) (hv : (d.map Prod.snd).Nodup)
    (w : List Char) (c : Nat) (h : pyDictGet d w = some c) :
    pyDictGet (d.map (fun p => (p.2, p.1))) c = some w := by
  induction d with
  | nil => simp [pyDictGet] at h
  | cons p rest ih =>
    simp only [List.map_cons, List.nodup_cons] at hv
    by_cases hpk : p.1 = w
    · have hfind : (p :: rest).find? (fun q => decide (q.1 = w)) = some p :=
        List.find?_cons_of_pos _ (by simp [hpk])
      unfold pyDictGet at h
      rw [hfind] at h
      simp only [Option.map_some'] at h
      have hpc : p.2 = c := by
        cases h
        rfl
      unfold pyDictGet
      rw [List.map_cons, List.find?_cons_of_pos _ (by simp [hpc])]
      simp [hpk]
    · unfold pyDictGet at h
      rw [List.find?_cons_of_neg _ (by simp [hpk])] at h
      have hc : c ∈ rest.map Prod.snd := pyDictGet_val_mem rest w c h
      have hne : p.2 ≠ c := by
        intro heq
        apply hv.1
        rw [heq]
        exact hc
      unfold pyDictGet
      rw [List.map_cons, List.find?_cons_of_neg _ (by simp [hne])]
      exact ih hv.2 h

theorem revDict_lookup (d : List (List Char × Nat)) (hv : (d.map Prod.snd).Nodup)
    (w : List Char) (c : Nat) (h : pyDictGet d w = some c) :
    pyDictGet (revDict d) c = some w := by
  rw [revDict_eq_swap d hv]
  exact pyDictGet_map_swap d hv w c h

theorem bytes3_int_roundtrip (c : Nat) (h : c < 2 ^ 24) :
    bytes3_to_int (c / 65536 % 256) (c / 256 % 256) (c % 256) = c := by
  unfold bytes3_to_int
  rw [show (2 : Nat) ^ 24 = 16777216 from by norm_num] at h
  have hd : c / 256 / 256 = c / 65536 := by
    rw [Nat.div_div_eq_div_mul]
  omega

/-! ## Claim C1: full round trip -/

theorem pyStrIsSpace_iff (t : List Char) :
    pyStrIsSpace t = true ↔ t ≠ [] ∧ ∀ x ∈ t, pyIsSpace x = true := by
  unfold pyStrIsSpace
  cases t with
  | nil => simp
  | cons c rest => simp [List.all_eq_true]

theorem encode_decode_tokens (dict : List (List Char × Nat))
    (hvals : (dict.map Prod.snd).Nodup) (hbound : ∀ p ∈ dict, p.2 < 2 ^ 24) :
    ∀ tokens : List (List Char),
      (∀ t ∈ tokens, t ≠ [] ∧ (∃ b, ∀ x ∈ t, pyIsSpace x = b) ∧
        (utf8EncodeStr t).length ≤ 255) →
      ∃ enc, encodeTokens dict tokens = some enc ∧
        decodeList (revDict dict) enc = tokens := by
  intro tokens
  induction tokens with
  | nil => intro _; exact ⟨[], rfl, rfl⟩
  | cons t rest ih =>
    intro h
    obtain ⟨hne, ⟨b, hb⟩, hlen⟩ := h t (List.mem_cons_self t rest)
    obtain ⟨encR, hR, hdR⟩ := ih (fun t' ht' => h t' (List.mem_cons_of_mem t ht'))
    cases b with
    | true =>
      have hsp : pyStrIsSpace t = true := (pyStrIsSpace_iff t).mpr ⟨hne, hb⟩
      have henc : encodeToken dict t =
          some (2 :: (utf8EncodeStr t).length :: utf8EncodeStr t) := by
        unfold encodeToken
        rw [if_pos hsp]
        show (if (utf8EncodeStr t).length ≤ 255 then
            some (2 :: (utf8EncodeStr t).length :: utf8EncodeStr t) else none) = _
        rw [if_pos hlen]
      refine ⟨(2 :: (utf8EncodeStr t).length :: utf8EncodeStr t) ++ encR, ?_, ?_⟩
      · show (match encodeToken dict t with
          | none => none
          | some r =>
            match encodeTokens dict rest with
            | none => none
            | some rs => some (r ++ rs)) =
          some ((2 :: (utf8EncodeStr t).length :: utf8EncodeStr t) ++ encR)
        rw [henc, hR]
      · rw [List.cons_append, List.cons_append]
        rw [decodeList_tagL (revDict dict) 2 (utf8EncodeStr t).length (Or.inr rfl)
          (utf8EncodeStr t) encR rfl]
        rw [utf8DecodeIgnore_encodeStr, hdR]
    | false =>
      have hsp : pyStrIsSpace t = false := by
        cases hI : pyStrIsSpace t
        · rfl
        · exfalso
          obtain ⟨_, hall⟩ := (pyStrIsSpace_iff t).mp hI
          cases t with
          | nil => exact hne rfl
          | cons c cs =>
            have h1 := hall c (List.mem_cons_self c cs)
            have h2 := hb c (List.mem_cons_self c cs)
            rw [h1] at h2
            exact Bool.noConfusion h2
      cases hget : pyDictGet dict t with
      | some code =>
        have hcode : code < 2 ^ 24 := by
          have hc := pyDictGet_val_mem dict t code hget
          obtain ⟨p, hp, hp2⟩ := List.mem_map.mp hc
          have := hbound p hp
          omega
        have henc : encodeToken dict t = some (1 :: int_to_3bytes code) := by
          unfold encodeToken
          rw [if_neg (by simp [hsp]), hget]
        refine ⟨(1 :: int_to_3bytes code) ++ encR, ?_, ?_⟩
        · show (match encodeToken dict t with
            | none => none
            | some r =>
              match encodeTokens dict rest with
              | none => none
              | some rs => some (r ++ rs)) = some ((1 :: int_to_3bytes code) ++ encR)
          rw [henc, hR]
        · show decodeList (revDict dict)
            (1 :: (code / 65536 % 256) :: (code / 256 % 256) :: (code % 256) :: encR) =
            t :: rest
          rw [decodeList_tag1, bytes3_int_roundtrip code hcode,
            revDict_lookup dict hvals t code hget, hdR]
          rfl
      | none =>
        have henc : encodeToken dict t =
            some (0 :: (utf8EncodeStr t).length :: utf8EncodeStr t) := by
          unfold encodeToken
          rw [if_neg (by simp [hsp]), hget]
          show (if (utf8EncodeStr t).length ≤ 255 then
              some (0 :: (utf8EncodeStr t).length :: utf8EncodeStr t) else none) = _
          rw [if_pos hlen]
        refine ⟨(0 :: (utf8EncodeStr t).length :: utf8EncodeStr t) ++ encR, ?_, ?_⟩
        · show (match encodeToken dict t with
            | none => none
            | some r =>
              match encodeTokens dict rest with
              | none => none
              | some rs => some (r ++ rs)) =
            some ((0 :: (utf8EncodeStr t).length :: utf8EncodeStr t) ++ encR)
          rw [henc, hR]
        · rw [List.cons_append, List.cons_append]
          rw [decodeList_tagL (revDict dict) 0 (utf8EncodeStr t).length (Or.inl rfl)
            (utf8EncodeStr t) encR rfl]
          rw [utf8DecodeIgnore_encodeStr, hdR]

/-- Claim C1: for every text whose tokens each occupy at most 255 UTF-8
bytes, and every dictionary index built by `load_dictionary_from_file`
(with the default 2^24 line cap, so every id fits in 24 bits), compression
succeeds and decompressing its output reproduces the text exactly. -/
theorem claim_C1 (lines : List (List Char)) (text : List Char)
    (h : ∀ t ∈ tokenize text, (utf8EncodeStr t).length ≤ 255) :
    ∃ enc,
      compress_text_with_dictionary text (load_dictionary_from_file lines (2 ^ 24)) =
        some enc ∧
      decompress_text_with_dictionary enc (load_dictionary_from_file lines (2 ^ 24)) =
        text := by
  obtain ⟨hbound, hkeys, hvals⟩ := load_dictionary_good lines (2 ^ 24)
  obtain ⟨enc, henc, hdec⟩ := encode_decode_tokens _ hvals hbound (tokenize text)
    (fun t ht => ⟨(tokenize_tokens text t ht).1, (tokenize_tokens text t ht).2, h t ht⟩)
  refine ⟨enc, henc, ?_⟩
  unfold decompress_text_with_dictionary
  rw [hdec, tokenize_flatten]

/-- Witness for C1: text `"the x"` with the one-word dictionary `["the"]`
(a dictionary hit, a space run and an unknown word). -/
theorem claim_C1_witness :
    ∃ enc,
      compress_text_with_dictionary ['t', 'h', 'e', Char.ofNat 32, 'x']
        (load_dictionary_from_file [['t', 'h', 'e']] (2 ^ 24)) = some enc ∧
      decompress_text_with_dictionary enc
        (load_dictionary_from_file [['t', 'h', 'e']] (2 ^ 24)) =
        ['t', 'h', 'e', Char.ofNat 32, 'x'] :=
  claim_C1 [['t', 'h', 'e']] ['t', 'h', 'e', Char.ofNat 32, 'x'] (by decide)

/-! ## Claim C9: truncation at record boundaries -/

theorem decodeList_wf_step (rev : List (Nat × List Char)) (r : List Nat)
    (h : wfRecord r = true) :
    ∃ s, ∀ X : List Nat, decodeList rev (r ++ X) = s :: decodeList rev X := by
  match r with
  | [] => exact absurd h (by simp [wfRecord])
  | [t] => exact absurd h (by simp [wfRecord])
  | t :: l :: payload =>
    by_cases ht : t = 1
    · subst ht
      rw [wfRecord, if_pos rfl] at h
      simp only [Bool.and_eq_true, beq_iff_eq, decide_eq_true_eq] at h
      obtain ⟨⟨hlen2, _⟩, _⟩ := h
      match payload, hlen2 with
      | [b1, b2], _ =>
        exact ⟨(pyDictGet rev (bytes3_to_int l b1 b2)).getD [],
          fun X => decodeList_tag1 rev l b1 b2 X⟩
    · rw [wfRecord, if_neg ht] at h
      simp only [Bool.and_eq_true, Bool.or_eq_true, beq_iff_eq, decide_eq_true_eq] at h
      obtain ⟨⟨ht02, hlen⟩, _⟩ := h
      exact ⟨utf8DecodeIgnore payload, fun X => decodeList_tagL rev t l ht02 payload X hlen⟩

theorem decodeList_flatten_take (rev : List (Nat × List Char)) :
    ∀ (rs : List (List Nat)), (∀ r ∈ rs, wfRecord r = true) →
      ∀ k : Nat,
        decodeList rev ((rs.take k).flatten) = (decodeList rev rs.flatten).take k := by
  intro rs
  induction rs with
  | nil => intro _ k; simp [decodeList_nil]
  | cons r rest ih =>
    intro h k
    obtain ⟨s, hs⟩ := decodeList_wf_step rev r (h r (List.mem_cons_self r rest))
    cases k with
    | zero => simp [decodeList_nil]
    | succ k =>
      rw [List.take_succ_cons]
      show decodeList rev (r ++ (rest.take k).flatten) =
        (decodeList rev ((r :: rest).flatten)).take (k + 1)
      rw [hs ((rest.take k).flatten)]
      rw [ih (fun r' hr' => h r' (List.mem_cons_of_mem r hr')) k]
      show s :: (decodeList rev rest.flatten).take k =
        (decodeList rev (r ++ rest.flatten)).take (k + 1)
      rw [hs rest.flatten]
      rfl

/-- Claim C9: cutting a stream of well-formed records at any record
boundary decodes to exactly the per-record decodes up to that boundary,
which is a prefix of the full decode (earlier records are never corrupted
by truncation). -/
theorem claim_C9 (dictionary : List (List Char × Nat)) (rs : List (List Nat))
    (h : ∀ r ∈ rs, wfRecord r = true) (k : Nat) :
    decodeList (revDict dictionary) ((rs.take k).flatten) =
      (decodeList (revDict dictionary) rs.flatten).take k ∧
    ∃ u, decompress_text_with_dictionary rs.flatten dictionary =
      decompress_text_with_dictionary ((rs.take k).flatten) dictionary ++ u := by
  refine ⟨decodeList_flatten_take _ rs h k, ?_⟩
  refine ⟨((decodeList (revDict dictionary) rs.flatten).drop k).flatten, ?_⟩
  unfold decompress_text_with_dictionary
  rw [decodeList_flatten_take _ rs h k]
  rw [← List.flatten_append]
  rw [List.take_append_drop]

/-- Witness for C9: two records (a dictionary reference and a space
literal), cut after the first. -/
theorem claim_C9_witness :
    decodeList (revDict []) (([[1, 0, 0, 0], [2, 1, 32]].take 1).flatten) =
      (decodeList (revDict []) [[1, 0, 0, 0], [2, 1, 32]].flatten).take 1 ∧
    ∃ u, decompress_text_with_dictionary [[1, 0, 0, 0], [2, 1, 32]].flatten [] =
      decompress_text_with_dictionary (([[1, 0, 0, 0], [2, 1, 32]].take 1).flatten) [] ++
        u :=
  claim_C9 [] [[1, 0, 0, 0], [2, 1, 32]] (by decide) 1
